import Mathlib

/-
Shallow embedding of the n-body simulator core (src/nbody.rs, src/math.rs).
Scalars of type f32 are idealized as real numbers; the machine-integer
instances of the algebra traits are embedded over ℤ (signed, idealized) and
over ℕ with arithmetic modulo 2^w (unsigned, wrapping semantics).
A separate model over `Option ℝ` collapses the IEEE exceptional values
(infinities and NaNs) into a single absorbing element `none`, which is used
to reason about the coincident-body singularity.
-/

namespace NBody

/-! ## Algebra trait layer (src/math.rs)

The Rust `Additive` and `Ring` traits are capability records.  Each concrete
instance provides its own `add`/`sub`/`neg`/`mul`/`pow`; the trait supplies
default bodies for `sub`, `neg` and `pow`.  We embed an instance as a record
of its concrete operations, and, separately, the trait default bodies. -/

/-- An `Additive` trait instance: the concrete operations a type provides
(trait `Additive` in src/math.rs, lines 5-15). -/
structure AdditiveImpl (α : Type) where
  ZERO : α
  add : α → α → α
  sub : α → α → α
  neg : α → α

/-- The trait default body for `sub`: `self.add(n.neg())` (src/math.rs line 10). -/
def defaultSub {α : Type} (I : AdditiveImpl α) (a b : α) : α :=
  I.add a (I.neg b)

/-- The trait default body for `neg`: `Self::ZERO.sub(self)` (src/math.rs line 13). -/
def defaultNeg {α : Type} (I : AdditiveImpl α) (a : α) : α :=
  I.sub I.ZERO a

/-- The `additive_impl_numeric` instance family for signed integers
(`isize i8 i16 i32 i64`), idealized over ℤ: `add` is `+`, `sub` is `-`,
`neg` is `-x` (src/math.rs lines 17-33, 43). -/
def intAdditive : AdditiveImpl ℤ :=
  { ZERO := 0, add := fun a b => a + b, sub := fun a b => a - b, neg := fun a => -a }

/-- The `additive_impl_numeric` instance family for floats (`f32 f64`),
idealized over ℝ (src/math.rs lines 17-33, 43). -/
noncomputable def realAdditive : AdditiveImpl ℝ :=
  { ZERO := 0, add := fun a b => a + b, sub := fun a b => a - b, neg := fun a => -a }

/-- Bitwise complement of a `w`-bit value: `!y = 2^w - 1 - y`. -/
def bnot (w : ℕ) (y : ℕ) : ℕ := 2 ^ w - 1 - y

/-- The `additive_impl_unsigned` instance family (`usize u8 u16 u32 u64`),
over ℕ with wrapping arithmetic modulo `2^w` (src/math.rs lines 17-29, 35-41, 44).
The source body of `neg` is `!x.wrapping_add(1)`, which by Rust precedence is
the bitwise NOT of `x.wrapping_add(1)`; `add` and `sub` wrap modulo `2^w`. -/
def unsignedAdditive (w : ℕ) : AdditiveImpl ℕ :=
  { ZERO := 0
    add := fun a b => (a + b) % 2 ^ w
    sub := fun a b => (a + (2 ^ w - b % 2 ^ w)) % 2 ^ w
    neg := fun x => bnot w ((x + 1) % 2 ^ w) }

/-- What the `additive_impl_unsigned` macro was evidently meant to produce for
`neg`: twos-complement wrapping negation `(!x).wrapping_add(1) = (2^w - x) % 2^w`. -/
def twosComplementNeg (w : ℕ) (x : ℕ) : ℕ := (bnot w (x % 2 ^ w) + 1) % 2 ^ w

/-- A `Ring` trait instance: the concrete operations (trait `Ring` in
src/math.rs, lines 46-53). -/
structure RingImpl (α : Type) where
  ONE : α
  mul : α → α → α
  pow : α → ℕ → α

/-- The trait default body for `pow`:
`iter::repeat(self).take(n as usize).fold(Ring::ONE, Ring::mul)`
(src/math.rs line 51): a left fold of `mul` over `n` copies of `x`, starting
from `ONE`. -/
def defaultPow {α : Type} (R : RingImpl α) (x : α) (n : ℕ) : α :=
  (List.replicate n x).foldl R.mul R.ONE

/-- The `ring_impl_int` instance family (`usize u8 ... i64`), idealized over ℤ:
`mul` is `*` and `pow` is the built-in integer power (src/math.rs lines 55-67, 73). -/
def intRing : RingImpl ℤ :=
  { ONE := 1, mul := fun a b => a * b, pow := fun x n => x ^ n }

/-- The `ring_impl_float` instance family (`f32 f64`), idealized over ℝ:
`mul` is `*` and `pow` is `powi`, idealized as the exact power (src/math.rs
lines 55-63, 69-71, 74). -/
noncomputable def realRing : RingImpl ℝ :=
  { ONE := 1, mul := fun a b => a * b, pow := fun x n => x ^ n }

/-! ## vec2 (src/math.rs lines 108-188), at the `f32` instantiation -/

/-- The 2-component vector `vec2<f32>`, scalars idealized as ℝ
(src/math.rs lines 108-112). -/
@[ext] structure vec2 where
  x : ℝ
  y : ℝ

/-- Componentwise addition: `impl Add for vec2` (src/math.rs lines 120-129). -/
noncomputable instance : Add vec2 := ⟨fun a b => ⟨a.x + b.x, a.y + b.y⟩⟩

/-- Componentwise subtraction: `impl Sub for vec2` (src/math.rs lines 131-140). -/
noncomputable instance : Sub vec2 := ⟨fun a b => ⟨a.x - b.x, a.y - b.y⟩⟩

/-- Componentwise negation: `impl Neg for vec2` (src/math.rs lines 142-151). -/
noncomputable instance : Neg vec2 := ⟨fun a => ⟨-a.x, -a.y⟩⟩

/-- The additive identity `vec2::ZERO` (src/math.rs lines 153-157). -/
noncomputable instance : Zero vec2 := ⟨⟨0, 0⟩⟩

/-- Scalar multiplication `impl Mul<K> for vec2`, at `K = f32`, via the
`Module` impl `scale(self, n) = self * n` (src/math.rs lines 76-90, 167-178). -/
noncomputable instance : HMul vec2 ℝ vec2 := ⟨fun v k => ⟨v.x * k, v.y * k⟩⟩

/-- Squared norm: `normsq() = self.x.pow(2).add(self.y.pow(2))`
(src/math.rs lines 180-184), with the float `pow` idealized as `^`. -/
noncomputable def vec2.normsq (v : vec2) : ℝ := v.x ^ 2 + v.y ^ 2

theorem vec2.add_def (a b : vec2) : a + b = ⟨a.x + b.x, a.y + b.y⟩ := rfl
theorem vec2.sub_def (a b : vec2) : a - b = ⟨a.x - b.x, a.y - b.y⟩ := rfl
theorem vec2.neg_def (a : vec2) : -a = ⟨-a.x, -a.y⟩ := rfl
theorem vec2.zero_def : (0 : vec2) = ⟨0, 0⟩ := rfl
theorem vec2.hmul_def (a : vec2) (k : ℝ) : a * k = ⟨a.x * k, a.y * k⟩ := rfl

noncomputable instance : AddCommGroup vec2 where
  add := (· + ·)
  add_assoc := by intro a b c; ext <;> simp [vec2.add_def] <;> ring
  zero := 0
  zero_add := by intro a; ext <;> simp [vec2.add_def, vec2.zero_def]
  add_zero := by intro a; ext <;> simp [vec2.add_def, vec2.zero_def]
  nsmul := nsmulRec
  zsmul := zsmulRec
  neg := (- ·)
  sub := (· - ·)
  sub_eq_add_neg := by
    intro a b; ext <;> simp [vec2.sub_def, vec2.add_def, vec2.neg_def] <;> ring
  neg_add_cancel := by intro a; ext <;> simp [vec2.add_def, vec2.neg_def, vec2.zero_def]
  add_comm := by intro a b; ext <;> simp [vec2.add_def] <;> ring

/-! ## Physics state and the core functions (src/nbody.rs) -/

/-- A body: `struct Object { s: vec2<f32>, v: vec2<f32>, m: f32 }`
(src/nbody.rs lines 24-29). -/
@[ext] structure Object where
  s : vec2
  v : vec2
  m : ℝ

/-- A derivative: `struct Deriv { ds: vec2<f32>, dv: vec2<f32> }`
(src/nbody.rs lines 31-35). -/
@[ext] structure Deriv where
  ds : vec2
  dv : vec2

/-- The `#[derive(Default)]` value of `Deriv`: both components zero. -/
noncomputable def zeroDeriv : Deriv := ⟨0, 0⟩

/-- The source function `partial` (src/nbody.rs lines 37-43), renamed because
`partial` is reserved in Lean: advance a body by `dt` times a derivative;
mass is copied unchanged. -/
noncomputable def advance (o : Object) (d : Deriv) (dt : ℝ) : Object :=
  { m := o.m, s := o.s + d.ds * dt, v := o.v + d.dv * dt }

/-- The gravitational constant `G` (src/nbody.rs line 45). -/
noncomputable def G : ℝ := 6.67408e-11

/-- The gravitational acceleration that `b` exerts on `a`
(src/nbody.rs lines 47-52). -/
noncomputable def grav (a b : Object) : vec2 :=
  let ba := b.s - a.s
  let rsq := ba.normsq
  let mag := G * b.m / rsq
  ba * mag * (1 / Real.sqrt rsq)

/-- The parallel reduction `reduce(|| vec2::ZERO, |a, v| a + v)` over a list of
vectors, sequentialized as a left fold from the zero vector. -/
noncomputable def sumv (l : List vec2) : vec2 := l.foldl (· + ·) 0

/-- The derivative field `diff` (src/nbody.rs lines 54-81): build the partial
state, then for each body i sum `grav` over the bodies before i (`take i`) and
after i (`skip(i+1)`), and zip with the partial velocities. -/
noncomputable def diff (init : List Object) (t dt : ℝ) (derivs : List Deriv) :
    List Deriv :=
  let new := (init.zip derivs).map fun od => advance od.1 od.2 dt
  ((new.enum.map fun ia =>
      sumv ((new.take ia.1).map fun b => grav ia.2 b) +
        sumv ((new.drop (ia.1 + 1)).map fun b => grav ia.2 b)).zip new).map
    fun ao => { ds := ao.2.v, dv := ao.1 }

/-- The RK4 weighting `weight(a,b,c,d) = (a + (b + c)*2.0 + d) * (1.0/6.0)`
(src/nbody.rs lines 83-85). -/
noncomputable def weight (a b c d : vec2) : vec2 :=
  (a + (b + c) * (2 : ℝ) + d) * ((1 : ℝ) / 6)

/-- One RK4 step `integrate` (src/nbody.rs lines 87-101). -/
noncomputable def integrate (state : List Object) (t dt : ℝ) : List Object :=
  let a := diff state t 0 (List.replicate state.length zeroDeriv)
  let b := diff state t (0.5 * dt) a
  let c := diff state t (0.5 * dt) b
  let d := diff state t dt c
  (((a.zip (b.zip (c.zip d))).map fun x =>
      { ds := weight x.1.ds x.2.1.ds x.2.2.1.ds x.2.2.2.ds
        dv := weight x.1.dv x.2.1.dv x.2.2.1.dv x.2.2.2.dv : Deriv }).zip
    state).map fun dO => advance dO.2 dO.1 dt

/-! ## Spec-side definitions for the refinement claims -/

/-- Left scalar multiple, used to write the spec formula `2·k` (the source
only provides the right multiple `k * 2`; both are componentwise). -/
noncomputable instance : SMul ℝ vec2 := ⟨fun k v => ⟨k * v.x, k * v.y⟩⟩

/-- Componentwise division by a scalar, used to write the spec formula
`(k1 + 2·k2 + 2·k3 + k4) / 6`. -/
noncomputable instance : HDiv vec2 ℝ vec2 := ⟨fun v k => ⟨v.x / k, v.y / k⟩⟩

theorem vec2.smul_def (k : ℝ) (a : vec2) : k • a = ⟨k * a.x, k * a.y⟩ := rfl
theorem vec2.hdiv_def (a : vec2) (k : ℝ) : a / k = ⟨a.x / k, a.y / k⟩ := rfl

/-- The spec combined RK4 derivative (spec §4.5): per body,
`(k1 + 2·k2 + 2·k3 + k4) / 6`, applied componentwise to `ds` and `dv`. -/
noncomputable def rk4CombineSpec (k1 k2 k3 k4 : Deriv) : Deriv :=
  { ds := (k1.ds + (2 : ℝ) • k2.ds + (2 : ℝ) • k3.ds + k4.ds) / (6 : ℝ)
    dv := (k1.dv + (2 : ℝ) • k2.dv + (2 : ℝ) • k3.dv + k4.dv) / (6 : ℝ) }

/-- The spec RK4 step (spec §4.5), written as the spec states it:
`k1 = diff(state, t, 0, zero_derivs)`, `k2 = diff(state, t, dt/2, k1)`,
`k3 = diff(state, t, dt/2, k2)`, `k4 = diff(state, t, dt, k3)`, then
`new_state[i] = state[i]` advanced by `dt` times the combined derivative,
with the same advance operation as the partial-state step of `diff`. -/
noncomputable def integrateSpec (state : List Object) (t dt : ℝ) : List Object :=
  let k1 := diff state t 0 (List.replicate state.length zeroDeriv)
  let k2 := diff state t (dt / 2) k1
  let k3 := diff state t (dt / 2) k2
  let k4 := diff state t dt k3
  (((k1.zip (k2.zip (k3.zip k4))).map fun x =>
      rk4CombineSpec x.1 x.2.1 x.2.2.1 x.2.2.2).zip state).map
    fun dO => advance dO.2 dO.1 dt

/-! ## Helper lemmas -/

lemma foldl_mul_replicate {M : Type} [Monoid M] (x : M) (n : ℕ) (a : M) :
    (List.replicate n x).foldl (· * ·) a = a * x ^ n := by
  induction n generalizing a with
  | zero => simp
  | succ n ih =>
      simp only [List.replicate_succ, List.foldl_cons, ih, pow_succ']
      rw [mul_assoc]

lemma vec2.normsq_pos (v : vec2) (h : v ≠ 0) : 0 < v.normsq := by
  rw [vec2.normsq]
  rcases eq_or_ne v.x 0 with hx0 | hx0
  · rcases eq_or_ne v.y 0 with hy0 | hy0
    · exact absurd (by ext <;> simp [hx0, hy0, vec2.zero_def]) h
    · have hy : 0 < v.y ^ 2 := by positivity
      nlinarith [sq_nonneg v.x]
  · have hx : 0 < v.x ^ 2 := by positivity
    nlinarith [sq_nonneg v.y]

/-! ## Claim theorems -/

/-- C1: for bodies with distinct positions, `grav a b` is literally the chain
`direction * (G * b.m / rsq) * (1 / sqrt rsq)` with `rsq = normsq direction`,
`direction = b.s - a.s`, and this equals the inverse-cube closed form
`direction * (G * b.m / |direction| ^ 3)`. -/
theorem grav_steps_and_inverse_cube (a b : Object) (h : a.s ≠ b.s) :
    grav a b =
      (b.s - a.s) * (G * b.m / (b.s - a.s).normsq) *
        (1 / Real.sqrt ((b.s - a.s).normsq)) ∧
    grav a b = (b.s - a.s) * (G * b.m / Real.sqrt ((b.s - a.s).normsq) ^ 3) := by
  have hd : b.s - a.s ≠ 0 := sub_ne_zero_of_ne (Ne.symm h)
  have hr : 0 < (b.s - a.s).normsq := vec2.normsq_pos _ hd
  have hs : 0 < Real.sqrt ((b.s - a.s).normsq) := Real.sqrt_pos.mpr hr
  have hsq : Real.sqrt ((b.s - a.s).normsq) ^ 2 = (b.s - a.s).normsq :=
    Real.sq_sqrt hr.le
  refine ⟨rfl, ?_⟩
  have h3 : Real.sqrt ((b.s - a.s).normsq) ^ 3 =
      (b.s - a.s).normsq * Real.sqrt ((b.s - a.s).normsq) := by
    have : Real.sqrt ((b.s - a.s).normsq) ^ 3 =
        Real.sqrt ((b.s - a.s).normsq) ^ 2 * Real.sqrt ((b.s - a.s).normsq) := by
      ring
    rw [this, hsq]
  rw [grav]
  ext <;> (simp only [vec2.hmul_def, h3]; field_simp; try ring)

/-- Witness for C1 at the concrete bodies of the spec literal example. -/
theorem grav_steps_and_inverse_cube_witness :
    (Object.mk ⟨0, 0⟩ ⟨0, 0⟩ 1).s ≠ (Object.mk ⟨1, 0⟩ ⟨0, 0⟩ 1).s ∧
    (grav (Object.mk ⟨0, 0⟩ ⟨0, 0⟩ 1) (Object.mk ⟨1, 0⟩ ⟨0, 0⟩ 1) =
      ((Object.mk ⟨1, 0⟩ ⟨0, 0⟩ 1).s - (Object.mk ⟨0, 0⟩ ⟨0, 0⟩ 1).s) *
        (G * (Object.mk ⟨1, 0⟩ ⟨0, 0⟩ 1).m /
          ((Object.mk ⟨1, 0⟩ ⟨0, 0⟩ 1).s - (Object.mk ⟨0, 0⟩ ⟨0, 0⟩ 1).s).normsq) *
        (1 / Real.sqrt (((Object.mk ⟨1, 0⟩ ⟨0, 0⟩ 1).s -
          (Object.mk ⟨0, 0⟩ ⟨0, 0⟩ 1).s).normsq)) ∧
     grav (Object.mk ⟨0, 0⟩ ⟨0, 0⟩ 1) (Object.mk ⟨1, 0⟩ ⟨0, 0⟩ 1) =
      ((Object.mk ⟨1, 0⟩ ⟨0, 0⟩ 1).s - (Object.mk ⟨0, 0⟩ ⟨0, 0⟩ 1).s) *
        (G * (Object.mk ⟨1, 0⟩ ⟨0, 0⟩ 1).m /
          Real.sqrt (((Object.mk ⟨1, 0⟩ ⟨0, 0⟩ 1).s -
            (Object.mk ⟨0, 0⟩ ⟨0, 0⟩ 1).s).normsq) ^ 3)) := by
  have hne : (Object.mk ⟨0, 0⟩ ⟨0, 0⟩ 1).s ≠ (Object.mk ⟨1, 0⟩ ⟨0, 0⟩ 1).s := by
    intro hc
    have := congrArg vec2.x hc
    norm_num at this
  exact ⟨hne, grav_steps_and_inverse_cube _ _ hne⟩

/-- C4: the unsigned `Additive` instances break the trait default laws.
The source `neg` for unsigned types is `!x.wrapping_add(1)`, i.e. the bitwise
NOT of `x + 1` (Rust method calls bind tighter than unary `!`), which differs
from twos-complement negation; at width 8 and `x = 0` the code gives
`neg 0 = 254`, while `sub ZERO 0 = 0` and `add 0 (neg 0) = 254 ≠ ZERO`.
The signed-integer and float instances do satisfy the default laws. -/
theorem unsigned_neg_breaks_additive_default_laws :
    ((unsignedAdditive 8).neg 0 = 254 ∧
     defaultNeg (unsignedAdditive 8) 0 = 0 ∧
     (unsignedAdditive 8).sub 0 0 = 0 ∧
     defaultSub (unsignedAdditive 8) 0 0 = 254 ∧
     (unsignedAdditive 8).add 0 ((unsignedAdditive 8).neg 0) = 254 ∧
     twosComplementNeg 8 0 = 0) ∧
    (∀ a b : ℤ, intAdditive.sub a b = defaultSub intAdditive a b) ∧
    (∀ a : ℤ, intAdditive.neg a = defaultNeg intAdditive a) ∧
    (∀ a : ℤ, intAdditive.add a (intAdditive.neg a) = intAdditive.ZERO) ∧
    (∀ a b : ℝ, realAdditive.sub a b = defaultSub realAdditive a b) ∧
    (∀ a : ℝ, realAdditive.neg a = defaultNeg realAdditive a) ∧
    (∀ a : ℝ, realAdditive.add a (realAdditive.neg a) = realAdditive.ZERO) := by
  refine ⟨by decide, ?_, ?_, ?_, ?_, ?_, ?_⟩ <;>
    (intros; simp [intAdditive, realAdditive, defaultSub, defaultNeg]) <;> ring

/-- C5: every provided `pow` agrees with the trait default (a fold of `mul`
over `n` copies of `x` starting from `ONE`), and satisfies
`pow x 0 = ONE`, `pow x 1 = x`, `pow x 2 = mul x x`, for the integer and
float instance families. -/
theorem pow_matches_default_fold :
    (∀ (x : ℤ) (n : ℕ), intRing.pow x n = defaultPow intRing x n) ∧
    (∀ (x : ℝ) (n : ℕ), realRing.pow x n = defaultPow realRing x n) ∧
    (∀ x : ℤ, intRing.pow x 0 = intRing.ONE ∧ intRing.pow x 1 = x ∧
      intRing.pow x 2 = intRing.mul x x) ∧
    (∀ x : ℝ, realRing.pow x 0 = realRing.ONE ∧ realRing.pow x 1 = x ∧
      realRing.pow x 2 = realRing.mul x x) := by
  refine ⟨?_, ?_, ?_, ?_⟩
  · intro x n
    simp [intRing, defaultPow, foldl_mul_replicate]
  · intro x n
    simp [realRing, defaultPow, foldl_mul_replicate]
  · intro x
    refine ⟨rfl, by simp [intRing], by simp [intRing, sq]⟩
  · intro x
    refine ⟨rfl, by simp [realRing], by simp [realRing, sq]⟩

/-- C8: for a single-body system, `diff` returns one derivative whose `dv`
component is the zero vector (and whose `ds` is the advanced velocity of the advanced body),
for all `t`, `dt` and any base derivative. -/
theorem diff_single_body_dv_zero (o : Object) (d : Deriv) (t dt : ℝ) :
    diff [o] t dt [d] = [{ ds := (advance o d dt).v, dv := 0 }] := by
  simp [diff, sumv]

/-- C9: the spec literal example, with both bodies of mass 1 at `(0,0)` and
`(1,0)`: the accelerations are exactly `(G, 0)` and `(-G, 0)` with
`G = 6.67408e-11`. -/
theorem grav_literal_example :
    grav (Object.mk ⟨0, 0⟩ ⟨0, 0⟩ 1) (Object.mk ⟨1, 0⟩ ⟨0, 0⟩ 1) =
      ⟨6.67408e-11, 0⟩ ∧
    grav (Object.mk ⟨1, 0⟩ ⟨0, 0⟩ 1) (Object.mk ⟨0, 0⟩ ⟨0, 0⟩ 1) =
      ⟨-6.67408e-11, 0⟩ := by
  constructor <;>
    (rw [grav]
     ext <;> simp [vec2.sub_def, vec2.hmul_def, vec2.normsq, G])

/-- C10: `diff` never checks that the state and derivative slices have equal
length; the zip silently truncates, and the output length is the minimum of
the two input lengths. -/
theorem diff_length_min (init : List Object) (t dt : ℝ) (derivs : List Deriv) :
    (diff init t dt derivs).length = min init.length derivs.length := by
  simp [diff]

lemma sumv_eq_sum (l : List vec2) : sumv l = l.sum := (List.sum_eq_foldl).symm

lemma list_sum_getD {M : Type} [AddCommMonoid M] (l : List M) :
    l.sum = ∑ j ∈ Finset.range l.length, l.getD j 0 := by
  induction l with
  | nil => simp
  | cons a l ih =>
      rw [List.sum_cons, ih, List.length_cons, Finset.sum_range_succ']
      simp [add_comm]

/-- An arbitrary body, used only as the out-of-range default of `List.getD`
in specification statements; all indices stay in range. -/
noncomputable def arbObject : Object := ⟨⟨0, 0⟩, ⟨0, 0⟩, 0⟩

/-- The partial state of spec §4.4 step 1 as a total indexing function:
body `k` advanced by `dt` times base derivative `k`. -/
noncomputable def offsetAt (init : List Object) (derivs : List Deriv) (dt : ℝ)
    (k : ℕ) : Object :=
  advance (init.getD k arbObject) (derivs.getD k zeroDeriv) dt

/-- C3: with index-aligned inputs of equal length `n`, `diff` returns one
derivative per body, whose `ds` is the velocity of the partial-state body and whose `dv`
is the vector sum of `grav` of the partial bodies over all indices `j ≠ i`,
self-interaction excluded. -/
theorem diff_matches_field_spec (init : List Object) (t dt : ℝ)
    (derivs : List Deriv) (hlen : derivs.length = init.length) :
    diff init t dt derivs =
      (List.range init.length).map fun i =>
        { ds := (offsetAt init derivs dt i).v
          dv := ∑ j ∈ (Finset.range init.length).erase i,
                  grav (offsetAt init derivs dt i) (offsetAt init derivs dt j) } := by
  simp only [diff]
  set n := init.length with hn
  set new := (init.zip derivs).map (fun od => advance od.1 od.2 dt) with hnew
  have hlnew : new.length = n := by simp [hnew, hlen]
  have hget : ∀ (k : ℕ) (hk : k < new.length), new[k] = offsetAt init derivs dt k := by
    intro k hk
    have hkn : k < n := hlnew ▸ hk
    simp only [hnew, List.getElem_map, List.getElem_zip, offsetAt]
    rw [List.getD_eq_getElem _ _ (by omega), List.getD_eq_getElem _ _ (by omega)]
  apply List.ext_getElem
  · simp [hlnew, hlen]
  · intro i h1 h2
    have hi : i < n := by simpa using h2
    simp only [List.getElem_map, List.getElem_zip, List.getElem_enum,
      List.getElem_range, hget, Deriv.mk.injEq]
    refine ⟨trivial, ?_⟩
    have htake : sumv ((new.take i).map fun b => grav (offsetAt init derivs dt i) b) =
        ∑ j ∈ Finset.range i,
          grav (offsetAt init derivs dt i) (offsetAt init derivs dt j) := by
      rw [sumv_eq_sum, list_sum_getD]
      have hlt : ((new.take i).map fun b => grav (offsetAt init derivs dt i) b).length
          = i := by
        simp [hlnew, min_eq_left hi.le]
      rw [hlt]
      refine Finset.sum_congr rfl fun j hj => ?_
      have hji : j < i := Finset.mem_range.mp hj
      rw [List.getD_eq_getElem _ _ (by rw [hlt]; exact hji)]
      simp only [List.getElem_map, List.getElem_take, hget]
    have hdrop : sumv ((new.drop (i + 1)).map fun b => grav (offsetAt init derivs dt i) b) =
        ∑ j ∈ Finset.Ico (i + 1) n,
          grav (offsetAt init derivs dt i) (offsetAt init derivs dt j) := by
      rw [sumv_eq_sum, list_sum_getD]
      have hld : ((new.drop (i + 1)).map fun b => grav (offsetAt init derivs dt i) b).length
          = n - (i + 1) := by
        simp [hlnew]
      rw [hld, Finset.sum_Ico_eq_sum_range
        (fun j => grav (offsetAt init derivs dt i) (offsetAt init derivs dt j)) (i + 1) n]
      refine Finset.sum_congr rfl fun j hj => ?_
      have hj' : j < n - (i + 1) := Finset.mem_range.mp hj
      rw [List.getD_eq_getElem _ _ (by rw [hld]; exact hj')]
      simp only [List.getElem_map, List.getElem_drop, hget]
    rw [htake, hdrop]
    have herase : ∑ j ∈ (Finset.range n).erase i,
        grav (offsetAt init derivs dt i) (offsetAt init derivs dt j) =
        (∑ j ∈ Finset.range n,
          grav (offsetAt init derivs dt i) (offsetAt init derivs dt j)) -
          grav (offsetAt init derivs dt i) (offsetAt init derivs dt i) :=
      eq_sub_of_add_eq (Finset.sum_erase_add _ _ (Finset.mem_range.mpr hi))
    have hsplit : ∑ j ∈ Finset.range n,
        grav (offsetAt init derivs dt i) (offsetAt init derivs dt j) =
        (∑ j ∈ Finset.range (i + 1),
          grav (offsetAt init derivs dt i) (offsetAt init derivs dt j)) +
        ∑ j ∈ Finset.Ico (i + 1) n,
          grav (offsetAt init derivs dt i) (offsetAt init derivs dt j) := by
      rw [Finset.range_eq_Ico]
      exact (Finset.sum_Ico_consecutive _ (Nat.zero_le (i + 1)) hi).symm
    rw [herase, hsplit, Finset.sum_range_succ]
    abel

/-- Witness for C3 on a concrete two-body state with zero base derivatives. -/
theorem diff_matches_field_spec_witness :
    ([zeroDeriv, zeroDeriv] : List Deriv).length =
      ([Object.mk ⟨0, 0⟩ ⟨0, 0⟩ 1, Object.mk ⟨1, 0⟩ ⟨0, 0⟩ 1] : List Object).length ∧
    diff [Object.mk ⟨0, 0⟩ ⟨0, 0⟩ 1, Object.mk ⟨1, 0⟩ ⟨0, 0⟩ 1] 0 0
        [zeroDeriv, zeroDeriv] =
      (List.range ([Object.mk ⟨0, 0⟩ ⟨0, 0⟩ 1,
          Object.mk ⟨1, 0⟩ ⟨0, 0⟩ 1] : List Object).length).map fun i =>
        { ds := (offsetAt [Object.mk ⟨0, 0⟩ ⟨0, 0⟩ 1, Object.mk ⟨1, 0⟩ ⟨0, 0⟩ 1]
            [zeroDeriv, zeroDeriv] 0 i).v
          dv := ∑ j ∈ (Finset.range ([Object.mk ⟨0, 0⟩ ⟨0, 0⟩ 1,
              Object.mk ⟨1, 0⟩ ⟨0, 0⟩ 1] : List Object).length).erase i,
            grav (offsetAt [Object.mk ⟨0, 0⟩ ⟨0, 0⟩ 1, Object.mk ⟨1, 0⟩ ⟨0, 0⟩ 1]
                [zeroDeriv, zeroDeriv] 0 i)
              (offsetAt [Object.mk ⟨0, 0⟩ ⟨0, 0⟩ 1, Object.mk ⟨1, 0⟩ ⟨0, 0⟩ 1]
                [zeroDeriv, zeroDeriv] 0 j) } :=
  ⟨rfl, diff_matches_field_spec _ 0 0 _ rfl⟩

/-! ## Exceptional-value model of the f32 core (for the singularity claim)

The claim about the force-law singularity is about IEEE-754 exceptional
results: dividing a nonzero value by `0.0` yields an infinity, `0.0 * inf` and
`0.0 / 0.0` yield NaN, and every arithmetic operation on NaN yields NaN.  To
reason about their propagation we re-run the same source functions over
`Option ℝ`, where `none` stands for the class of exceptional values
(infinities and NaNs) and is absorbing for every operation, and finite
arithmetic is exact.  Division by zero and square roots of negative numbers
are the two operations that move a finite argument into the exceptional
class, exactly as in the f32 source. -/

/-- A scalar that is either finite (`some`) or exceptional (`none`). -/
abbrev FP := Option ℝ

/-- Addition with absorbing exceptional values. -/
def fadd : FP → FP → FP
  | some a, some b => some (a + b)
  | _, _ => none

/-- Subtraction with absorbing exceptional values. -/
def fsub : FP → FP → FP
  | some a, some b => some (a - b)
  | _, _ => none

/-- Multiplication with absorbing exceptional values. -/
def fmul : FP → FP → FP
  | some a, some b => some (a * b)
  | _, _ => none

open Classical in
/-- Division: a finite denominator `0` produces an exceptional result
(an infinity or NaN in IEEE), and exceptional values absorb. -/
noncomputable def fdiv : FP → FP → FP
  | some a, some b => if b = 0 then none else some (a / b)
  | _, _ => none

open Classical in
/-- Square root: negative finite arguments produce NaN; exceptional absorbs. -/
noncomputable def fsqrt : FP → FP
  | some a => if a < 0 then none else some (Real.sqrt a)
  | none => none

/-- Integer power (`powi`), exact on finite values, absorbing on exceptional. -/
def fpow : FP → ℕ → FP
  | some a, n => some (a ^ n)
  | none, _ => none

/-- The f32 pair with exceptional components tracked. -/
structure vec2F where
  x : FP
  y : FP

def vaddF (a b : vec2F) : vec2F := ⟨fadd a.x b.x, fadd a.y b.y⟩
def vsubF (a b : vec2F) : vec2F := ⟨fsub a.x b.x, fsub a.y b.y⟩
def hmulF (v : vec2F) (k : FP) : vec2F := ⟨fmul v.x k, fmul v.y k⟩
def normsqF (v : vec2F) : FP := fadd (fpow v.x 2) (fpow v.y 2)

/-- `vec2::ZERO`: a finite zero vector. -/
def zeroVecF : vec2F := ⟨some 0, some 0⟩

structure ObjectF where
  s : vec2F
  v : vec2F
  m : FP

structure DerivF where
  ds : vec2F
  dv : vec2F

/-- `Deriv::default()`: finite zero derivative. -/
def zeroDerivF : DerivF := ⟨zeroVecF, zeroVecF⟩

/-- `partial` over the exceptional-value scalars. -/
def advanceF (o : ObjectF) (d : DerivF) (dt : FP) : ObjectF :=
  { m := o.m, s := vaddF o.s (hmulF d.ds dt), v := vaddF o.v (hmulF d.dv dt) }

/-- `grav` over the exceptional-value scalars: the same steps as the source,
with no check on `rsq`. -/
noncomputable def gravF (a b : ObjectF) : vec2F :=
  let ba := vsubF b.s a.s
  let rsq := normsqF ba
  let mag := fdiv (fmul (some G) b.m) rsq
  hmulF (hmulF ba mag) (fdiv (some 1) (fsqrt rsq))

noncomputable def sumvF (l : List vec2F) : vec2F := l.foldl vaddF zeroVecF

/-- `diff` over the exceptional-value scalars. -/
noncomputable def diffF (init : List ObjectF) (t dt : ℝ) (derivs : List DerivF) :
    List DerivF :=
  let new := (init.zip derivs).map fun od => advanceF od.1 od.2 (some dt)
  ((new.enum.map fun ia =>
      vaddF (sumvF ((new.take ia.1).map fun b => gravF ia.2 b))
        (sumvF ((new.drop (ia.1 + 1)).map fun b => gravF ia.2 b))).zip new).map
    fun ao => { ds := ao.2.v, dv := ao.1 }

/-- `weight` over the exceptional-value scalars. -/
noncomputable def weightF (a b c d : vec2F) : vec2F :=
  hmulF (vaddF (vaddF a (hmulF (vaddF b c) (some 2))) d) (some (1 / 6))

/-- `integrate` over the exceptional-value scalars. -/
noncomputable def integrateF (state : List ObjectF) (t dt : ℝ) : List ObjectF :=
  let a := diffF state t 0 (List.replicate state.length zeroDerivF)
  let b := diffF state t (0.5 * dt) a
  let c := diffF state t (0.5 * dt) b
  let d := diffF state t dt c
  (((a.zip (b.zip (c.zip d))).map fun x =>
      { ds := weightF x.1.ds x.2.1.ds x.2.2.1.ds x.2.2.2.ds
        dv := weightF x.1.dv x.2.1.dv x.2.2.1.dv x.2.2.2.dv : DerivF }).zip
    state).map fun dO => advanceF dO.2 dO.1 (some dt)

@[simp] lemma fadd_none (a : FP) : fadd a none = none := by cases a <;> rfl
@[simp] lemma none_fadd (a : FP) : fadd none a = none := by cases a <;> rfl
@[simp] lemma fsub_none (a : FP) : fsub a none = none := by cases a <;> rfl
@[simp] lemma none_fsub (a : FP) : fsub none a = none := by cases a <;> rfl
@[simp] lemma fmul_none (a : FP) : fmul a none = none := by cases a <;> rfl
@[simp] lemma none_fmul (a : FP) : fmul none a = none := by cases a <;> rfl
@[simp] lemma fdiv_none (a : FP) : fdiv a none = none := by cases a <;> rfl
@[simp] lemma none_fdiv (a : FP) : fdiv none a = none := by cases a <;> rfl
@[simp] lemma fsqrt_none : fsqrt none = none := rfl
@[simp] lemma fpow_none (n : ℕ) : fpow none n = none := rfl
@[simp] lemma fadd_some (a b : ℝ) : fadd (some a) (some b) = some (a + b) := rfl
@[simp] lemma fsub_some (a b : ℝ) : fsub (some a) (some b) = some (a - b) := rfl
@[simp] lemma fmul_some (a b : ℝ) : fmul (some a) (some b) = some (a * b) := rfl
@[simp] lemma fpow_some (a : ℝ) (n : ℕ) : fpow (some a) n = some (a ^ n) := rfl

@[simp] lemma fdiv_some_zero (a : FP) : fdiv a (some 0) = none := by
  cases a with
  | none => rfl
  | some a => simp [fdiv]

@[simp] lemma fsqrt_some_zero : fsqrt (some 0) = some 0 := by
  simp [fsqrt]

/-- Two bodies at the same finite position make `grav` exceptional in both
components, whatever their velocities and masses. -/
@[simp] lemma gravF_coincident (px py : ℝ) (va vb : vec2F) (ma mb : FP) :
    gravF ⟨⟨some px, some py⟩, va, ma⟩ ⟨⟨some px, some py⟩, vb, mb⟩ =
      ⟨none, none⟩ := by
  simp [gravF, vsubF, normsqF, hmulF]

lemma diffF_length (init : List ObjectF) (t dt : ℝ) (derivs : List DerivF) :
    (diffF init t dt derivs).length = min init.length derivs.length := by
  simp [diffF]

lemma weightF_first_none (b c d : vec2F) :
    weightF ⟨none, none⟩ b c d = ⟨none, none⟩ := by
  simp [weightF, vaddF, hmulF]

lemma weightF_second_none (a c d : vec2F) :
    weightF a ⟨none, none⟩ c d = ⟨none, none⟩ := by
  simp [weightF, vaddF, hmulF]

lemma advanceF_none_deriv (o : ObjectF) (k : FP) :
    advanceF o ⟨⟨none, none⟩, ⟨none, none⟩⟩ k =
      ⟨⟨none, none⟩, ⟨none, none⟩, o.m⟩ := by
  simp [advanceF, vaddF, hmulF]

/-- Once every base derivative carries an exceptional `dv`, every partial
velocity of the advanced body is exceptional, hence so is every `ds` that `diffF` returns:
the corruption propagates with no detection or recovery. -/
lemma diffF_ds_none (init : List ObjectF) (t dt : ℝ) (derivs : List DerivF)
    (h : ∀ d ∈ derivs, d.dv = ⟨none, none⟩) :
    ∀ e ∈ diffF init t dt derivs, e.ds = ⟨none, none⟩ := by
  intro e he
  simp only [diffF, List.mem_map] at he
  obtain ⟨ao, hao, rfl⟩ := he
  obtain ⟨a1, a2⟩ := ao
  have h2 : a2 ∈ (init.zip derivs).map fun od => advanceF od.1 od.2 (some dt) :=
    (List.of_mem_zip hao).2
  obtain ⟨od, hod, rfl⟩ := List.mem_map.mp h2
  obtain ⟨o, d⟩ := od
  have hd : d.dv = ⟨none, none⟩ := h d (List.of_mem_zip hod).2
  simp [advanceF, vaddF, hmulF, hd]

set_option maxHeartbeats 1000000 in
/-- C6: `grav` performs no zero check on `rsq`: two bodies at the same finite
position give `rsq = 0`, the returned acceleration is exceptional (an IEEE
infinity or NaN, modelled by the absorbing `none`) in both components, and
`diff` and `integrate` propagate the exceptional values into the affected
`dv` of the affected bodies and then into their position and velocity, with no detection,
recovery, or clamping. -/
theorem coincident_bodies_corrupt_state (px py : ℝ) (va vb : vec2F)
    (ma mb : FP) (t dt : ℝ) :
    normsqF (vsubF (ObjectF.mk ⟨some px, some py⟩ vb mb).s
        (ObjectF.mk ⟨some px, some py⟩ va ma).s) = some 0 ∧
    gravF (ObjectF.mk ⟨some px, some py⟩ va ma)
        (ObjectF.mk ⟨some px, some py⟩ vb mb) = ⟨none, none⟩ ∧
    (diffF [ObjectF.mk ⟨some px, some py⟩ va ma,
        ObjectF.mk ⟨some px, some py⟩ vb mb] t dt
        [zeroDerivF, zeroDerivF]).map DerivF.dv =
      [⟨none, none⟩, ⟨none, none⟩] ∧
    (integrateF [ObjectF.mk ⟨some px, some py⟩ va ma,
        ObjectF.mk ⟨some px, some py⟩ vb mb] t dt).map (fun o => (o.s, o.v)) =
      [(⟨none, none⟩, ⟨none, none⟩), (⟨none, none⟩, ⟨none, none⟩)] := by
  refine ⟨by simp [normsqF, vsubF], gravF_coincident px py va vb ma mb, ?_, ?_⟩
  · simp [diffF, advanceF, hmulF, vaddF, zeroDerivF, zeroVecF, sumvF,
      List.enum, List.enumFrom]
  · simp only [integrateF]
    set A : ObjectF := ObjectF.mk ⟨some px, some py⟩ va ma with hA
    set B : ObjectF := ObjectF.mk ⟨some px, some py⟩ vb mb with hB
    set k1 := diffF [A, B] t 0
      (List.replicate ([A, B] : List ObjectF).length zeroDerivF) with hk1
    set k2 := diffF [A, B] t (0.5 * dt) k1 with hk2
    set k3 := diffF [A, B] t (0.5 * dt) k2 with hk3
    set k4 := diffF [A, B] t dt k3 with hk4
    have hF1 : ∀ e ∈ k1, e.dv = (⟨none, none⟩ : vec2F) := by
      rw [hk1]
      intro e he
      have hmap : (diffF [A, B] t 0
          (List.replicate ([A, B] : List ObjectF).length zeroDerivF)).map
            DerivF.dv = [⟨none, none⟩, ⟨none, none⟩] := by
        simp [hA, hB, diffF, advanceF, hmulF, vaddF, zeroDerivF, zeroVecF, sumvF,
          List.enum, List.enumFrom]
      have hdv := List.mem_map_of_mem DerivF.dv he
      rw [hmap] at hdv
      simp only [List.mem_cons, List.not_mem_nil, or_false] at hdv
      rcases hdv with h | h <;> exact h
    have hF2 : ∀ e ∈ k2, e.ds = (⟨none, none⟩ : vec2F) := by
      rw [hk2]
      exact diffF_ds_none _ _ _ _ hF1
    have hL1 : k1.length = 2 := by rw [hk1]; simp [diffF_length]
    have hL2 : k2.length = 2 := by rw [hk2]; simp [diffF_length, hL1]
    have hL3 : k3.length = 2 := by rw [hk3]; simp [diffF_length, hL2]
    have hL4 : k4.length = 2 := by rw [hk4]; simp [diffF_length, hL3]
    apply List.ext_getElem
    · simp [hL1, hL2, hL3, hL4]
    · intro i h1 h2
      have hi : i < 2 := by simpa using h2
      have hi1 : i < k1.length := by omega
      have hi2 : i < k2.length := by omega
      have hm1 : k1[i].dv = (⟨none, none⟩ : vec2F) := hF1 _ (List.getElem_mem hi1)
      have hm2 : k2[i].ds = (⟨none, none⟩ : vec2F) := hF2 _ (List.getElem_mem hi2)
      simp only [List.getElem_map, List.getElem_zip]
      rw [hm1, hm2, weightF_second_none, weightF_first_none, advanceF_none_deriv]
      rcases i with _ | _ | i
      · simp
      · simp
      · omega

/-- C2: the source `integrate` equals the classic fixed-step RK4 composition
written as the spec states it: the same `diff` evaluations at offsets `0`,
`dt/2`, `dt/2` and `dt`, combined per body as `(k1 + 2·k2 + 2·k3 + k4) / 6`
componentwise, and applied to each body with the same advance operation as
the partial-state step of `diff`. -/
theorem integrate_matches_rk4_spec (state : List Object) (t dt : ℝ) :
    integrate state t dt = integrateSpec state t dt := by
  have h05 : (0.5 : ℝ) * dt = dt / 2 := by ring
  have hw : (fun x : Deriv × (Deriv × (Deriv × Deriv)) =>
      ({ ds := weight x.1.ds x.2.1.ds x.2.2.1.ds x.2.2.2.ds
         dv := weight x.1.dv x.2.1.dv x.2.2.1.dv x.2.2.2.dv } : Deriv)) =
      fun x : Deriv × (Deriv × (Deriv × Deriv)) =>
        rk4CombineSpec x.1 x.2.1 x.2.2.1 x.2.2.2 := by
    funext x
    ext <;>
      simp [weight, rk4CombineSpec, vec2.add_def, vec2.hmul_def, vec2.smul_def,
        vec2.hdiv_def] <;> ring
  simp only [integrate, integrateSpec, h05, hw]

/-- C7: one RK4 step returns a body list of the same length as the input,
index-aligned with it, and every output body keeps the mass of the input body
at the same index. -/
theorem integrate_frame (state : List Object) (t dt : ℝ) :
    (integrate state t dt).length = state.length ∧
    ∀ (i : ℕ) (h1 : i < (integrate state t dt).length) (h2 : i < state.length),
      (integrate state t dt)[i].m = state[i].m := by
  constructor
  · simp [integrate, diff_length_min]
  · intro i h1 h2
    simp only [integrate] at h1 ⊢
    simp only [List.getElem_map, List.getElem_zip, advance]

/-- Witness for C7 at a concrete one-body state. -/
theorem integrate_frame_witness :
    0 < (integrate [Object.mk ⟨0, 0⟩ ⟨0, 0⟩ 1] 0 1).length ∧
    0 < ([Object.mk ⟨0, 0⟩ ⟨0, 0⟩ 1] : List Object).length ∧
    (integrate [Object.mk ⟨0, 0⟩ ⟨0, 0⟩ 1] 0 1)[0].m =
      ([Object.mk ⟨0, 0⟩ ⟨0, 0⟩ 1] : List Object)[0].m := by
  have h := integrate_frame [Object.mk ⟨0, 0⟩ ⟨0, 0⟩ 1] 0 1
  have h1 : 0 < (integrate [Object.mk ⟨0, 0⟩ ⟨0, 0⟩ 1] 0 1).length := by
    rw [h.1]; norm_num
  exact ⟨h1, by norm_num, h.2 0 h1 (by norm_num)⟩

end NBody
